import Mathlib

/-!
Shallow embedding of `extract_anki.py`, a batch tool that extracts
theorem/definition/... environments from LaTeX lecture notes and converts
them to Anki flashcards.

Python strings are embedded as `List Char`.  Each Python loop is embedded
as a structurally recursive Lean function; loops whose progress argument
is "the scan cursor strictly increases" take an explicit fuel argument
that the wrapper instantiates with a sufficient bound (`length + 1`), so
that every definition is executable and kernel-evaluable.  Regular
expressions in the source are all of a simple deterministic shape
(literal alternatives, greedy character-class runs, lazy `.*?` bodies,
one-character lookarounds); each `re.sub` / `re.finditer` call is
embedded as a dedicated scanner implementing exactly the match semantics
of its pattern.
-/

namespace ExtractAnki

abbrev Str := List Char

/-- Characters treated as whitespace by Python `str.strip()` and by the
regex class `\s` on the ASCII range (the repository's data is ASCII). -/
def isWS (c : Char) : Bool :=
  c = ' ' || c = '\t' || c = '\n' || c = '\r' || c = '\x0b' || c = '\x0c'

/-- Python `str.strip()`: drop leading and trailing whitespace. -/
def pyStrip (s : Str) : Str :=
  ((s.dropWhile isWS).reverse.dropWhile isWS).reverse

/-- Python `str.strip(chars)`: drop leading and trailing characters that
belong to the set `cs`. -/
def pyStripChars (cs : Str) (s : Str) : Str :=
  ((s.dropWhile (cs.contains ·)).reverse.dropWhile (cs.contains ·)).reverse

/-- Python slicing `s[a:b]` (for `0 ≤ a`, clipped at the ends). -/
def slice (s : Str) (a b : Nat) : Str :=
  (s.drop a).take (b - a)

/-- `pat` matches (as a literal string) at position `j` of `s`. -/
def matchesAt (s pat : Str) (j : Nat) : Bool :=
  pat.isPrefixOf (s.drop j)

/-- `re.search` for a literal pattern starting the scan at position `i`:
the least position `j ≥ i` where `pat` occurs in `s`, if any.  (The python
code searches in the slice `s[i:]` and re-adds `i`; positions here are
absolute.) -/
def findFrom (s pat : Str) (i : Nat) : Option Nat :=
  (List.range' i (s.length + 1 - i)).find? (matchesAt s pat)

/-- All positions of `s` at which the literal `pat` matches, in increasing
order. -/
def occList (s pat : Str) : List Nat :=
  (List.range (s.length + 1)).filter (matchesAt s pat)

/-- The occurrences of `pat` at positions `≥ i`. -/
def occFrom (s pat : Str) (i : Nat) : List Nat :=
  (occList s pat).filter (fun j => i ≤ j)

/-! ### Characterization of `findFrom` by `occList` -/

theorem matchesAt_le_length {s pat : Str} {j : Nat} (h : matchesAt s pat j = true) :
    j + pat.length ≤ s.length ∨ pat = [] := by
  unfold matchesAt at h
  rw [List.isPrefixOf_iff_prefix] at h
  rcases le_or_lt j s.length with hj | hj
  · left
    have := h.length_le
    simp only [List.length_drop] at this
    omega
  · right
    have hnil : s.drop j = [] := List.drop_eq_nil_of_le (by omega)
    rw [hnil] at h
    exact List.prefix_nil.mp h

theorem mem_occList {s pat : Str} {j : Nat} :
    j ∈ occList s pat ↔ j ≤ s.length ∧ matchesAt s pat j = true := by
  unfold occList
  rw [List.mem_filter, List.mem_range]
  constructor
  · rintro ⟨h1, h2⟩
    exact ⟨by omega, h2⟩
  · rintro ⟨h1, h2⟩
    exact ⟨by omega, h2⟩

theorem occList_sorted (s pat : Str) : (occList s pat).Pairwise (· < ·) :=
  (List.pairwise_lt_range _).filter _

theorem occFrom_sorted (s pat : Str) (i : Nat) : (occFrom s pat i).Pairwise (· < ·) :=
  (occList_sorted s pat).filter _

theorem mem_occFrom {s pat : Str} {i j : Nat} :
    j ∈ occFrom s pat i ↔ j ∈ occList s pat ∧ i ≤ j := by
  unfold occFrom
  rw [List.mem_filter]
  simp

/-- Re-filtering occurrence lists at a later start position. -/
theorem occFrom_occFrom (s pat : Str) {i j : Nat} (h : i ≤ j) :
    occFrom s pat j = (occFrom s pat i).filter (fun k => j ≤ k) := by
  unfold occFrom
  rw [List.filter_filter]
  apply List.filter_congr
  intro x _
  by_cases hx : j ≤ x
  · have hix : i ≤ x := le_trans h hx
    simp [hx, hix]
  · by_cases hi : i ≤ x <;> simp [hx, hi]

theorem occFrom_zero (s pat : Str) : occFrom s pat 0 = occList s pat := by
  unfold occFrom
  rw [List.filter_eq_self]
  intro a _
  simp

/-- `find?` is the head of `filter`. -/
theorem find?_eq_head_filter {α : Type} (p : α → Bool) (l : List α) :
    l.find? p = (l.filter p).head? := by
  induction l with
  | nil => rfl
  | cons a l ih =>
    by_cases hm : p a
    · simp [List.find?, hm, List.filter_cons]
    · simp only [List.find?, hm, List.filter_cons]
      simp only [Bool.false_eq_true, if_false]
      exact ih

theorem findFrom_eq_head_occFrom (s pat : Str) (i : Nat) :
    findFrom s pat i = (occFrom s pat i).head? := by
  unfold findFrom occFrom occList
  rw [List.filter_filter, find?_eq_head_filter]
  congr 1
  have hsplit : List.range' 0 (min i (s.length + 1)) ++
      List.range' (min i (s.length + 1)) (s.length + 1 - min i (s.length + 1)) =
      List.range (s.length + 1) := by
    have := List.range'_append 0 (min i (s.length + 1))
      (s.length + 1 - min i (s.length + 1)) 1
    simp only [Nat.zero_add, Nat.one_mul] at this
    rw [this]
    rw [Nat.sub_add_cancel (Nat.min_le_right _ _), List.range_eq_range']
  rw [← hsplit, List.filter_append]
  have h1 : (List.range' 0 (min i (s.length + 1))).filter
      (fun a => decide (i ≤ a) && matchesAt s pat a) = [] := by
    rw [List.filter_eq_nil_iff]
    intro a ha
    rw [List.mem_range'] at ha
    obtain ⟨k, hk, hak⟩ := ha
    have ha2 : ¬ (i ≤ a) := by omega
    simp [ha2]
  rw [h1, List.nil_append]
  rcases le_or_lt i (s.length + 1) with hle | hlt
  · rw [Nat.min_eq_left hle]
    apply List.filter_congr
    intro x hx
    rw [List.mem_range'] at hx
    obtain ⟨k, hk, hxk⟩ := hx
    have hix : i ≤ x := by omega
    simp [hix]
  · rw [Nat.min_eq_right (by omega)]
    have hzero : s.length + 1 - i = 0 := by omega
    have hzero2 : s.length + 1 - (s.length + 1) = 0 := by omega
    simp [hzero, hzero2]

/-- `findFrom` on an explicitly known occurrence list. -/
theorem findFrom_of_occFrom {s pat : Str} {i : Nat} {l : List Nat}
    (h : occFrom s pat i = l) : findFrom s pat i = l.head? := by
  rw [findFrom_eq_head_occFrom, h]

theorem findFrom_some {s pat : Str} {i j : Nat} (h : findFrom s pat i = some j) :
    j ∈ occList s pat ∧ i ≤ j := by
  rw [findFrom_eq_head_occFrom] at h
  have hmem : j ∈ occFrom s pat i := by
    cases hocc : occFrom s pat i with
    | nil => rw [hocc] at h; exact absurd h (by simp)
    | cons a l =>
      rw [hocc] at h
      simp only [List.head?_cons, Option.some_inj] at h
      exact List.mem_cons.mpr (Or.inl h.symm)
  exact mem_occFrom.mp hmem

theorem findFrom_none {s pat : Str} {i : Nat} (h : findFrom s pat i = none) :
    occFrom s pat i = [] := by
  rw [findFrom_eq_head_occFrom] at h
  cases hocc : occFrom s pat i with
  | nil => rfl
  | cons a l => rw [hocc] at h; exact absurd h (by simp)

/-! ### The environment markers (`\begin{env}` / `\end{env}`) -/

def openPat (env : Str) : Str := "\\begin\x7b".data ++ env ++ ['}']

def closePat (env : Str) : Str := "\\end\x7b".data ++ env ++ ['}']

theorem openPat_length (env : Str) : (openPat env).length = env.length + 8 := by
  simp [openPat]

theorem closePat_length (env : Str) : (closePat env).length = env.length + 6 := by
  simp [closePat]

/-- The fixed list of environment types the tool extracts (`ENV_TYPES`). -/
def ENV_TYPES : List Str :=
  ["theorem".data, "proposition".data, "definition".data, "lemma".data, "corollary".data]

/-!
### The Block Extractor: `find_environments` (extract_anki.py lines 126-161)

The inner `while depth > 0` nesting scan and the outer `while True` loop
over open markers both advance a cursor that strictly increases past a
nonempty marker each step, so `s.length + 1` iterations always suffice;
the fuel argument makes this explicit (claim C10 proves sufficiency).
-/

/-- The inner nesting scan (lines 139-154): from scan position `sp` with
current nesting `depth`, find the matching `\end` position, or `none` if
the document is exhausted first (malformed input). -/
def scanEndGo (s bp ep : Str) : Nat → Nat → Nat → Option Nat
  | 0, _, _ => none
  | fuel + 1, depth, sp =>
    match findFrom s ep sp with
    | none => none
    | some e =>
      match findFrom s bp sp with
      | some b =>
        if b < e then
          scanEndGo s bp ep fuel (depth + 1) (b + bp.length)
        else if depth = 1 then some e
        else scanEndGo s bp ep fuel (depth - 1) (e + ep.length)
      | none =>
        if depth = 1 then some e
        else scanEndGo s bp ep fuel (depth - 1) (e + ep.length)

def scanEnd (s bp ep : Str) (sp : Nat) : Option Nat :=
  scanEndGo s bp ep (s.length + 1) 1 sp

/-- The outer loop over `\begin{env}` occurrences (lines 131-158) for a
single environment type. -/
def envLoopGo (s env : Str) : Nat → Nat → List (Str × Str × Nat)
  | 0, _ => []
  | fuel + 1, pos =>
    match findFrom s (openPat env) pos with
    | none => []
    | some st =>
      let cs := st + (openPat env).length
      match scanEnd s (openPat env) (closePat env) cs with
      | some e => (env, pyStrip (slice s cs e), st) :: envLoopGo s env fuel cs
      | none => envLoopGo s env fuel cs

def envLoop (s env : Str) : List (Str × Str × Nat) :=
  envLoopGo s env (s.length + 1) 0

/-- The key of the final `results.sort(key=lambda x: x[2])`. -/
def posLE (a b : Str × Str × Nat) : Prop := a.2.2 ≤ b.2.2

instance : DecidableRel posLE := fun a b => Nat.decLe _ _

instance : IsTotal (Str × Str × Nat) posLE := ⟨fun a b => Nat.le_total a.2.2 b.2.2⟩

instance : IsTrans (Str × Str × Nat) posLE := ⟨fun x y z => Nat.le_trans⟩

/-- `find_environments(tex_content, env_types)`: per-type extraction, then
a stable sort by start offset (Python `list.sort` is a stable sort by the
given key; `List.insertionSort` with `posLE` has exactly that behaviour). -/
def find_environments (s : Str) (envTypes : List Str) : List (Str × Str × Nat) :=
  List.insertionSort posLE ((envTypes.map (fun env => envLoop s env)).flatten)

/-!
### Generic left-to-right rewrite scan

Embeds Python `re.sub` (with a function or backreference replacement) for
the deterministic patterns used in the source: the matcher `m` receives
the current suffix and returns `some (repl, after)` when the pattern
matches a prefix of the suffix, where `after` is the suffix remaining
after the match.  The replacement is emitted and never rescanned, exactly
like `re.sub`.  A zero-width match emits the replacement and advances one
character (Python's empty-match rule).
-/

def subScanGo (m : Str → Option (Str × Str)) : Nat → Str → Str
  | 0, s => s
  | _ + 1, [] =>
    (match m [] with
     | some (r, _) => r
     | none => [])
  | fuel + 1, c :: rest =>
    match m (c :: rest) with
    | some (r, after) =>
      if after.length = rest.length + 1 then r ++ c :: subScanGo m fuel rest
      else r ++ subScanGo m fuel after
    | none => c :: subScanGo m fuel rest

def subScan (m : Str → Option (Str × Str)) (s : Str) : Str :=
  subScanGo m (s.length + 1) s

/-- Python `str.replace(old, new)`: replace every non-overlapping
occurrence, scanning left to right. -/
def pyReplace (s old new : Str) : Str :=
  subScan (fun suf => if old.isPrefixOf suf then some (new, suf.drop old.length) else none) s

/-- `pat.isPrefixOf s`, returning the rest after the prefix. -/
def stripPrefixQ (pat s : Str) : Option Str :=
  if pat.isPrefixOf s then some (s.drop pat.length) else none

/-!
### Macro Table Builder: `parse_macros` (lines 18-67)

Macro definitions are `(name, num_args, replacement)` triples.
-/

abbrev MacroDef := Str × Nat × Str

def isAsciiAlpha (c : Char) : Bool :=
  ('a' ≤ c && c ≤ 'z') || ('A' ≤ c && c ≤ 'Z')

/-- The regex tail `\s*$` (with `re.MULTILINE`): from this suffix, a run
of whitespace reaches the end of the string or a position just before a
newline. -/
def wsThenEOL : Str → Bool
  | [] => true
  | c :: rest => if c = '\n' then true else if isWS c then wsThenEOL rest else false

/-- Generic `re.finditer` loop: try the position matcher at every
position, and continue after each (nonempty) match. -/
def finditerGo {α : Type} (s : Str) (matchAtP : Nat → Option (α × Nat)) :
    Nat → Nat → List α
  | 0, _ => []
  | fuel + 1, i =>
    if s.length < i then []
    else
      match matchAtP i with
      | some (a, e) => a :: finditerGo s matchAtP fuel (max e (i + 1))
      | none => finditerGo s matchAtP fuel (i + 1)

def finditer {α : Type} (s : Str) (matchAtP : Nat → Option (α × Nat)) : List α :=
  finditerGo s matchAtP (s.length + 1) 0

/-- Lazy body of the `\newcommand` rule: `(.+?)\}\s*$` without `re.DOTALL`
(so the body may not contain a newline); the smallest nonempty body
followed by `}` and whitespace-to-end-of-line wins. -/
def newcommandBody : Str → Option (Str × Str)
  | [] => none
  | c :: rest =>
    if c = '\n' then none
    else
      match rest with
      | '}' :: r2 =>
        if wsThenEOL r2 then some ([c], r2)
        else
          match newcommandBody rest with
          | some (g, r) => some (c :: g, r)
          | none => none
      | _ =>
        match newcommandBody rest with
        | some (g, r) => some (c :: g, r)
        | none => none

/-- One candidate match of
`\\(?:re)?newcommand\{(\\[a-zA-Z]+)\}(?:\[(\d)\])?\{(.+?)\}\s*$`
at position `i` (returns the macro triple and the position after the
closing brace of the body; the `\s*` tail holds no further match starts,
so continuing there is equivalent to continuing after it). -/
def matchNewcommandAt (s : Str) (i : Nat) : Option (MacroDef × Nat) := do
  let suf := s.drop i
  let r0 ← (stripPrefixQ "\\renewcommand".data suf).orElse
    (fun _ => stripPrefixQ "\\newcommand".data suf)
  let r1 ← match r0 with
    | '{' :: '\\' :: r => some r
    | _ => none
  let nm := r1.takeWhile isAsciiAlpha
  if nm.isEmpty then none
  else do
    let r2 ← match r1.drop nm.length with
      | '}' :: r => some r
      | _ => none
    -- optional `[(\d)]`
    let (numArgs, r3) :=
      match r2 with
      | '[' :: d :: ']' :: r => if d.isDigit then (d.toNat - '0'.toNat, r) else (0, r2)
      | _ => (0, r2)
    -- if the bracket group was present but malformed, `\{` must match `[`
    let r4 ← match r3 with
      | '{' :: r => some r
      | _ => none
    let (body, r5) ← newcommandBody r4
    some ((('\\' :: nm), numArgs, body), i + (suf.length - r5.length))

/-- Greedy `\{([^}]+)\}`: a nonempty brace group with no inner `}`. -/
def braceGroup : Str → Option (Str × Str)
  | '{' :: r =>
    let run := r.takeWhile (fun c => c != '}')
    if run.isEmpty then none
    else
      match r.drop run.length with
      | '}' :: r2 => some (run, r2)
      | _ => none
  | _ => none

/-- `\\DeclareMathOperator\{(\\[a-zA-Z]+)\}\{([^}]+)\}` at position `i`. -/
def matchMathOperatorAt (s : Str) (i : Nat) : Option (MacroDef × Nat) := do
  let suf := s.drop i
  let r0 ← stripPrefixQ "\\DeclareMathOperator".data suf
  let r1 ← match r0 with
    | '{' :: '\\' :: r => some r
    | _ => none
  let nm := r1.takeWhile isAsciiAlpha
  if nm.isEmpty then none
  else do
    let r2 ← match r1.drop nm.length with
      | '}' :: r => some r
      | _ => none
    let (txt, r3) ← braceGroup r2
    some ((('\\' :: nm), 0, "\\operatorname\x7b".data ++ txt ++ ['}']),
      i + (suf.length - r3.length))

/-- `\\DeclareDocumentCommand\\([a-zA-Z]+)\{\}\{([^}]+)\}` at position `i`. -/
def matchDocumentCommandAt (s : Str) (i : Nat) : Option (MacroDef × Nat) := do
  let suf := s.drop i
  let r0 ← stripPrefixQ "\\DeclareDocumentCommand\\".data suf
  let nm := r0.takeWhile isAsciiAlpha
  if nm.isEmpty then none
  else do
    let r1 ← match r0.drop nm.length with
      | '{' :: '}' :: r => some r
      | _ => none
    let (txt, r2) ← braceGroup r1
    some ((('\\' :: nm), 0, txt), i + (suf.length - r2.length))

/-- `\\DeclarePairedDelimiter\\([a-zA-Z]+)\{([^}]+)\}\{([^}]+)\}` at `i`. -/
def matchPairedDelimiterAt (s : Str) (i : Nat) : Option (MacroDef × Nat) := do
  let suf := s.drop i
  let r0 ← stripPrefixQ "\\DeclarePairedDelimiter\\".data suf
  let nm := r0.takeWhile isAsciiAlpha
  if nm.isEmpty then none
  else do
    let (left, r1) ← braceGroup (r0.drop nm.length)
    let (right, r2) ← braceGroup r1
    some ((('\\' :: nm), 1, "\\left".data ++ left ++ " #1 \\right".data ++ right),
      i + (suf.length - r2.length))

/-- `parse_macros(tex_source)`: the four `finditer` loops, appended in
source order. -/
def parse_macros (tex_source : Str) : List MacroDef :=
  finditer tex_source (matchNewcommandAt tex_source) ++
  finditer tex_source (matchMathOperatorAt tex_source) ++
  finditer tex_source (matchDocumentCommandAt tex_source) ++
  finditer tex_source (matchPairedDelimiterAt tex_source)

/-!
### Macro Expander: `expand_macros` (lines 70-98)
-/

/-- Lookahead `(?![a-zA-Z])` after `k` consumed characters. -/
def noAlphaAt (suf : Str) (k : Nat) : Bool :=
  match suf.drop k with
  | [] => true
  | c :: _ => !(isAsciiAlpha c)

/-- Greedy `\{([^}]*)\}` (possibly empty group). -/
def braceGroupStar : Str → Option (Str × Str)
  | '{' :: r =>
    let run := r.takeWhile (fun c => c != '}')
    match r.drop run.length with
    | '}' :: r2 => some (run, r2)
    | _ => none
  | _ => none

/-- One `re.sub` application for a single macro definition
(the body of the inner `for name, num_args, replacement in macros` loop). -/
def applyMacroDef (m : MacroDef) (text : Str) : Str :=
  let (name, numArgs, repl) := m
  if numArgs = 0 then
    -- pattern: escaped_name + (?![a-zA-Z]), replaced by the literal template
    subScan (fun suf =>
      if name.isPrefixOf suf && noAlphaAt suf name.length then
        some (repl, suf.drop name.length)
      else none) text
  else if numArgs = 1 then
    -- pattern: escaped_name + \{([^}]*)\}, template with #1 replaced
    subScan (fun suf =>
      if name.isPrefixOf suf then
        match braceGroupStar (suf.drop name.length) with
        | some (arg, after) => some (pyReplace repl "#1".data arg, after)
        | none => none
      else none) text
  else if numArgs = 2 then
    -- pattern: escaped_name + \{([^}]*)\}\{([^}]*)\}
    subScan (fun suf =>
      if name.isPrefixOf suf then
        match braceGroupStar (suf.drop name.length) with
        | some (arg1, after1) =>
          match braceGroupStar after1 with
          | some (arg2, after) =>
            some (pyReplace (pyReplace repl "#1".data arg1) "#2".data arg2, after)
          | none => none
        | none => none
      else none) text
  else text

/-- One pass of the expansion rewrite: the inner `for` loop over the
macro list. -/
def expandPass (macros : List MacroDef) (text : Str) : Str :=
  macros.foldl (fun t m => applyMacroDef m t) text

/-- `expand_macros(text, macros)`: exactly 3 passes. -/
def expand_macros (text : Str) (macros : List MacroDef) : Str :=
  expandPass macros (expandPass macros (expandPass macros text))

/-!
### Markup-to-Display Converter: `latex_to_anki_mathjax` (lines 203-290)
-/

/-- `\end{NAME}` or `\end{NAME*}` at the head of the suffix (the regex
`\\end\{NAME\*?\}`): returns the rest after the marker. -/
def envEndAt (name : Str) : Str → Option Str := fun s =>
  match stripPrefixQ ("\\end\x7b".data ++ name) s with
  | none => none
  | some r =>
    match r with
    | '*' :: '}' :: r2 => some r2
    | '}' :: r2 => some r2
    | _ => none

/-- Lazy `(.*?)` (with `re.DOTALL`) up to the first `\end{NAME(*)}`:
returns the captured body and the rest after the end marker. -/
def scanToEnvEnd (name : Str) : Str → Option (Str × Str)
  | [] => none
  | c :: rest =>
    match envEndAt name (c :: rest) with
    | some r => some ([], r)
    | none =>
      match scanToEnvEnd name rest with
      | some (g, r) => some (c :: g, r)
      | none => none

/-- Lazy `(.*?)` up to the first literal `\end{NAME}` (no star variant,
for the `enumerate`/`itemize` rules). -/
def scanToEnvEnd2 (name : Str) : Str → Option (Str × Str)
  | [] => none
  | c :: rest =>
    match stripPrefixQ ("\\end\x7b".data ++ name ++ ['}']) (c :: rest) with
    | some r => some ([], r)
    | none =>
      match scanToEnvEnd2 name rest with
      | some (g, r) => some (c :: g, r)
      | none => none

/-- `\begin{NAME}` or `\begin{NAME*}` at the head: rest after marker. -/
def envBeginAt (name : Str) : Str → Option Str := fun s =>
  match stripPrefixQ ("\\begin\x7b".data ++ name) s with
  | none => none
  | some r =>
    match r with
    | '*' :: '}' :: r2 => some r2
    | '}' :: r2 => some r2
    | _ => none

/-- `re.sub(r'\\begin\{align\*?\}(.*?)\\end\{align\*?\}', ...)`:
wrap in `\[\begin{aligned}...\end{aligned}\]`. -/
def subAlign (t : Str) : Str :=
  subScan (fun suf =>
    match envBeginAt "align".data suf with
    | none => none
    | some r =>
      match scanToEnvEnd "align".data r with
      | some (g, after) =>
        some ("\\[\\begin\x7baligned\x7d".data ++ g ++ "\\end\x7baligned\x7d\\]".data, after)
      | none => none) t

/-- `equation(*)` environments become a bare `\[...\]`. -/
def subEquation (t : Str) : Str :=
  subScan (fun suf =>
    match envBeginAt "equation".data suf with
    | none => none
    | some r =>
      match scanToEnvEnd "equation".data r with
      | some (g, after) => some ("\\[".data ++ g ++ "\\]".data, after)
      | none => none) t

/-- `re.split(r'\\item\s*', content)`: the pieces between item markers
(each marker eats the following whitespace run). -/
def splitItemsGo : Nat → Str → Str → List Str
  | 0, acc, rest => [acc.reverse ++ rest]
  | fuel + 1, acc, rest =>
    if "\\item".data.isPrefixOf rest then
      let r2 := (rest.drop 5).dropWhile isWS
      acc.reverse :: splitItemsGo fuel [] r2
    else
      match rest with
      | [] => [acc.reverse]
      | c :: r => splitItemsGo fuel (c :: acc) r

def splitItems (content : Str) : List Str :=
  splitItemsGo (content.length + 1) [] content

/-- `convert_enumerate` / `convert_itemize` item-list body. -/
def itemsToHtml (content : Str) : Str :=
  let items := ((splitItems content).map pyStrip).filter (fun i => !i.isEmpty)
  (items.map (fun i => "<li>".data ++ i ++ "</li>".data)).flatten

/-- `\begin{enumerate}(?:\[[^\]]*\])?(.*?)\end{enumerate}` to an
`<ol>...</ol>` list. -/
def subEnumerate (t : Str) : Str :=
  subScan (fun suf =>
    match stripPrefixQ "\\begin\x7benumerate\x7d".data suf with
    | none => none
    | some r =>
      -- optional `[...]` option group (skipped when unclosed)
      let r1 :=
        match r with
        | '[' :: rr =>
          let run := rr.takeWhile (fun c => c != ']')
          match rr.drop run.length with
          | ']' :: r2 => r2
          | _ => r
        | _ => r
      match scanToEnvEnd2 "enumerate".data r1 with
      | some (g, after) => some ("<ol>".data ++ itemsToHtml g ++ "</ol>".data, after)
      | none => none) t

/-- `\begin{itemize}(.*?)\end{itemize}` to `<ul>...</ul>`. -/
def subItemize (t : Str) : Str :=
  subScan (fun suf =>
    match stripPrefixQ "\\begin\x7bitemize\x7d".data suf with
    | none => none
    | some r =>
      match scanToEnvEnd2 "itemize".data r with
      | some (g, after) => some ("<ul>".data ++ itemsToHtml g ++ "</ul>".data, after)
      | none => none) t

/-- `re.sub(r'\$\$(.*?)\$\$', r'\[...\]')`. -/
def scanToDD : Str → Option (Str × Str)
  | '$' :: '$' :: rest => some ([], rest)
  | c :: rest =>
    match scanToDD rest with
    | some (g, r) => some (c :: g, r)
    | none => none
  | [] => none

def subDoubleDollar (t : Str) : Str :=
  subScan (fun suf =>
    match suf with
    | '$' :: '$' :: rest =>
      match scanToDD rest with
      | some (g, after) => some ("\\[".data ++ g ++ "\\]".data, after)
      | none => none
    | _ => none) t

/-- Closing delimiter search for the inline-math rule
`(?<!\$)\$(?!\$)(.*?)(?<!\$)\$(?!\$)`: `prev` is the character preceding
the current position in the original text. -/
def findCloseD : Option Char → Str → Option (Str × Str)
  | p, '$' :: rest =>
    if p ≠ some '$' ∧ rest.head? ≠ some '$' then some ([], rest)
    else
      match findCloseD (some '$') rest with
      | some (g, r) => some ('$' :: g, r)
      | none => none
  | _, c :: rest =>
    match findCloseD (some c) rest with
    | some (g, r) => some (c :: g, r)
    | none => none
  | _, [] => none

def singleDGo : Nat → Option Char → Str → Str
  | 0, _, s => s
  | _ + 1, _, [] => []
  | fuel + 1, p, c :: rest =>
    if c = '$' ∧ p ≠ some '$' ∧ rest.head? ≠ some '$' then
      match findCloseD (some '$') rest with
      | some (g, after) =>
        "\\(".data ++ g ++ "\\)".data ++ singleDGo fuel (some '$') after
      | none => c :: singleDGo fuel (some c) rest
    else c :: singleDGo fuel (some c) rest

def subSingleDollar (t : Str) : Str :=
  singleDGo (t.length + 1) none t

/-- `\\CMD\{([^}]*)\}` to `<TAG>...</TAG>` (string replacement `\1`). -/
def subEmphCmd (cmd : Str) (openT closeT : Str) (t : Str) : Str :=
  subScan (fun suf =>
    match stripPrefixQ (cmd ++ ['{']) suf with
    | none => none
    | some r =>
      let run := r.takeWhile (fun c => c != '}')
      match r.drop run.length with
      | '}' :: after => some (openT ++ run ++ closeT, after)
      | _ => none) t

/-- Count of leading `<br>` repetitions. -/
def brRun : Str → Nat
  | '<' :: 'b' :: 'r' :: '>' :: rest => brRun rest + 1
  | _ => 0

/-- Count of leading `>rb<` repetitions (i.e. trailing `<br>` of the
unreversed string). -/
def brRunRev : Str → Nat
  | '>' :: 'r' :: 'b' :: '<' :: rest => brRunRev rest + 1
  | _ => 0

/-- `re.sub(r'(<br>){3,}', '<br><br>', text)`: a maximal (greedy) run of
3 or more markers collapses to two. -/
def collapseBr (t : Str) : Str :=
  subScan (fun suf =>
    let n := brRun suf
    if 3 ≤ n then some ("<br><br>".data, suf.drop (4 * n)) else none) t

/-- Lines 275-290: split on newlines, strip each line, join with `<br>`,
collapse 3+ `<br>` runs, `text.strip('<br>')` (a character-set strip!),
remove leading and trailing `(<br>)+`, and the final `return text.strip()`.
The two anchored subs run on newline-free text (the join removed every
newline), so end-of-string `$` semantics suffice. -/
def normalizeWhitespace (t : Str) : Str :=
  let cleaned := (t.splitOn '\n').map pyStrip
  let t1 := List.intercalate "<br>".data cleaned
  let t2 := collapseBr t1
  let t3 := pyStripChars "<br>".data t2
  let t4 := t3.drop (4 * brRun t3)
  let t5 := t4.take (t4.length - 4 * brRunRev t4.reverse)
  pyStrip t5

/-- `latex_to_anki_mathjax(text)`: the converter pipeline in source
order.  Double-dollar conversion runs before single-dollar conversion. -/
def latex_to_anki_mathjax (t : Str) : Str :=
  normalizeWhitespace
    (subEmphCmd "\\emph".data "<i>".data "</i>".data
      (subEmphCmd "\\textbf".data "<b>".data "</b>".data
        (subEmphCmd "\\textit".data "<i>".data "</i>".data
          (subSingleDollar
            (subDoubleDollar
              (subItemize
                (subEnumerate
                  (subEquation
                    (subAlign
                      (pyReplace (pyReplace t "\\qed".data []) "\\par".data []))))))))))

/-!
### Heading Index: `find_sections` / `get_section_context` (lines 164-189)

The heading regex alternation `(section|subsection|subsubsection)` only
ever yields one of three ranks, embedded as an enumeration.
-/

inductive SecRank where
  | sec
  | subsec
  | subsubsec
deriving DecidableEq, Repr

/-- `\(section|subsection|subsubsection)\{([^}]+)\}` at position `i`
(alternatives tried left to right; they are mutually exclusive). -/
def matchSectionAt (s : Str) (i : Nat) : Option ((Nat × SecRank × Str) × Nat) :=
  let suf := s.drop i
  let build : Str → SecRank → Option ((Nat × SecRank × Str) × Nat) := fun kw rk =>
    match stripPrefixQ ('\\' :: kw) suf with
    | some r =>
      match braceGroup r with
      | some (title, after) => some ((i, rk, title), i + (suf.length - after.length))
      | none => none
    | none => none
  match build "section".data SecRank.sec with
  | some m => some m
  | none =>
    match build "subsection".data SecRank.subsec with
    | some m => some m
    | none => build "subsubsection".data SecRank.subsubsec

/-- `find_sections(tex_content)`. -/
def find_sections (s : Str) : List (Nat × SecRank × Str) :=
  finditer s (matchSectionAt s)

/-- The `current` dict of `get_section_context`: at most one title per
rank. -/
structure SecState where
  secT : Option Str
  subT : Option Str
  subsubT : Option Str

/-- Setting a rank's title clears all strictly deeper ranks. -/
def updateSec (st : SecState) (rk : SecRank) (t : Str) : SecState :=
  match rk with
  | .sec => ⟨some t, none, none⟩
  | .subsec => ⟨st.secT, some t, none⟩
  | .subsubsec => ⟨st.secT, st.subT, some t⟩

/-- The `for ... if sec_pos > pos: break` fold of `get_section_context`. -/
def sectionFoldGo (p : Nat) : SecState → List (Nat × SecRank × Str) → SecState
  | st, [] => st
  | st, (q, rk, t) :: rest => if p < q then st else sectionFoldGo p (updateSec st rk t) rest

/-- Join the set titles in rank order with `" > "`. -/
def renderCtx (st : SecState) : Str :=
  List.intercalate " > ".data ([st.secT, st.subT, st.subsubT].filterMap id)

/-- `get_section_context(pos, sections)`. -/
def get_section_context (p : Nat) (sections : List (Nat × SecRank × Str)) : Str :=
  renderCtx (sectionFoldGo p ⟨none, none, none⟩ sections)

/-!
### Card Assembler: `extract_title_from_body`, `process_file`
(lines 192-200, 303-350) and the output row of `main` (lines 378-382)
-/

/-- `re.match(r'\s*\(([^)]+)\)', body)`: optional leading whitespace, a
parenthesized nonempty run without `)`.  Returns `(title, remaining)`. -/
def extract_title_from_body (body : Str) : Option Str × Str :=
  let r := body.dropWhile isWS
  match r with
  | '(' :: r2 =>
    let run := r2.takeWhile (fun c => c != ')')
    if run.isEmpty then (none, body)
    else
      match r2.drop run.length with
      | ')' :: rest => (some (pyStrip run), pyStrip rest)
      | _ => (none, body)
  | _ => (none, body)

/-- Python `str.capitalize()`. -/
def pyCapitalize : Str → Str
  | [] => []
  | c :: rest => c.toUpper :: rest.map Char.toLower

/-- `sanitize_tag(text)`. -/
def sanitize_tag (t : Str) : Str :=
  pyReplace (pyReplace (pyReplace t [' '] ['_']) [','] []) ['&'] "and".data

/-- `section_ctx.split(' > ')[0]`. -/
def topSectionOf (ctx : Str) : Str :=
  match findFrom ctx " > ".data 0 with
  | some i => ctx.take i
  | none => ctx

/-- The preamble: text before `\begin{document}` (whole file if absent). -/
def preambleOf (content : Str) : Str :=
  match findFrom content "\\begin\x7bdocument\x7d".data 0 with
  | some i => content.take i
  | none => content

/-- The body of the `for env_type, body, pos in environments` loop of
`process_file`: one `(front, back, tags)` card. -/
def assembleCard (course : Str) (allM : List MacroDef)
    (sections : List (Nat × SecRank × Str)) (r : Str × Str × Nat) : Str × Str × Str :=
  let (env_type, body, pos) := r
  let (titleQ, clean_body) := extract_title_from_body body
  let clean2 := expand_macros clean_body allM
  let titleE := titleQ.map (fun t => expand_macros t allM)
  let ctx := get_section_context pos sections
  let type_label := pyCapitalize env_type
  let front0 :=
    match titleE with
    | some t => "<b>".data ++ type_label ++ "</b>: ".data ++ t
    | none =>
      "<b>".data ++ type_label ++ "</b>".data ++
        (if ctx.isEmpty then [] else " (".data ++ ctx ++ [')'])
  let front := front0 ++ "<br><i>[".data ++ course ++ "]</i>".data
  let back := latex_to_anki_mathjax clean2
  let tags := [sanitize_tag course, sanitize_tag env_type] ++
    (if ctx.isEmpty then [] else [sanitize_tag (topSectionOf ctx)])
  (front, back, List.intercalate [' '] tags)

/-- The pure core of `process_file(filepath, global_macros)`: reading the
file is replaced by passing its text; the course name is the directory
name of the file. -/
def processCards (course : Str) (globalM : List MacroDef) (content : Str) :
    List (Str × Str × Str) :=
  let fileM := parse_macros (preambleOf content)
  let allM := globalM ++ fileM
  let sections := find_sections content
  let environments := find_environments content ENV_TYPES
  environments.map (assembleCard course allM sections)

/-- One output data row of `main` (lines 378-382): tabs are replaced by
spaces in `front` and `back` (but not in `tags`), then the three fields
are joined with tabs. -/
def serializeRow (front back tags : Str) : Str :=
  pyReplace front ['\t'] [' '] ++ ['\t'] ++ pyReplace back ['\t'] [' '] ++ ['\t'] ++
    tags ++ ['\n']

/-!
### Termination of the Block Extractor

Both extractor loops advance their cursor strictly past a nonempty marker
at every step, so `s.length + 1` fuel always suffices: the fuelled
computations are independent of the fuel once it reaches that bound.
-/

theorem findFrom_ge_len {s pat : Str} {i : Nat} (h : s.length + 1 ≤ i) :
    findFrom s pat i = none := by
  unfold findFrom
  have hz : s.length + 1 - i = 0 := by omega
  rw [hz]
  rfl

theorem findFrom_some_bounds {s pat : Str} {i b : Nat} (hpat : pat ≠ [])
    (h : findFrom s pat i = some b) : i ≤ b ∧ b + pat.length ≤ s.length := by
  obtain ⟨hmem, hib⟩ := findFrom_some h
  obtain ⟨hle, hmatch⟩ := mem_occList.mp hmem
  rcases matchesAt_le_length hmatch with hb | hnil
  · exact ⟨hib, hb⟩
  · exact absurd hnil hpat

theorem openPat_ne_nil (env : Str) : openPat env ≠ [] := by
  intro h
  have := congrArg List.length h
  rw [openPat_length] at this
  simp at this

theorem closePat_ne_nil (env : Str) : closePat env ≠ [] := by
  intro h
  have := congrArg List.length h
  rw [closePat_length] at this
  simp at this

/-- Out of range, the inner scan immediately fails for any fuel. -/
theorem scanEndGo_of_ge_len {s bp ep : Str} {sp : Nat} (h : s.length + 1 ≤ sp) :
    ∀ f d, scanEndGo s bp ep f d sp = none := by
  intro f d
  cases f with
  | zero => rfl
  | succ f => unfold scanEndGo; rw [findFrom_ge_len h]

/-- Fuel independence of the inner nesting scan above the sufficient
bound. -/
theorem scanEndGo_congr (s bp ep : Str) (hbp : bp ≠ []) (hep : ep ≠ []) :
    ∀ f1 f2 d sp, s.length + 1 - sp ≤ f1 → s.length + 1 - sp ≤ f2 →
      scanEndGo s bp ep f1 d sp = scanEndGo s bp ep f2 d sp := by
  intro f1
  induction f1 with
  | zero =>
    intro f2 d sp h1 h2
    have hsp : s.length + 1 ≤ sp := by omega
    rw [scanEndGo_of_ge_len hsp, scanEndGo_of_ge_len hsp]
  | succ f1 ih =>
    intro f2 d sp h1 h2
    cases f2 with
    | zero =>
      have hsp : s.length + 1 ≤ sp := by omega
      rw [scanEndGo_of_ge_len hsp, scanEndGo_of_ge_len hsp]
    | succ f2 =>
      unfold scanEndGo
      cases he : findFrom s ep sp with
      | none => rfl
      | some e =>
        obtain ⟨hspe, helen⟩ := findFrom_some_bounds hep he
        have heplen : 1 ≤ ep.length := by
          cases ep with
          | nil => exact absurd rfl hep
          | cons c l => simp
        cases hb : findFrom s bp sp with
        | none =>
          by_cases hd : d = 1
          · simp [hd]
          · simp only [hd, if_false]
            exact ih f2 (d - 1) (e + ep.length) (by omega) (by omega)
        | some b =>
          obtain ⟨hspb, hblen⟩ := findFrom_some_bounds hbp hb
          have hbplen : 1 ≤ bp.length := by
            cases bp with
            | nil => exact absurd rfl hbp
            | cons c l => simp
          by_cases hbe : b < e
          · simp only [hbe, if_true]
            exact ih f2 (d + 1) (b + bp.length) (by omega) (by omega)
          · by_cases hd : d = 1
            · simp [hbe, hd]
            · simp only [hbe, hd, if_false]
              exact ih f2 (d - 1) (e + ep.length) (by omega) (by omega)

/-- Out of range, the outer loop returns no blocks for any fuel. -/
theorem envLoopGo_of_ge_len {s env : Str} {pos : Nat} (h : s.length + 1 ≤ pos) :
    ∀ f, envLoopGo s env f pos = [] := by
  intro f
  cases f with
  | zero => rfl
  | succ f => unfold envLoopGo; rw [findFrom_ge_len h]

/-- Fuel independence of the outer extraction loop above the sufficient
bound. -/
theorem envLoopGo_congr (s env : Str) :
    ∀ f1 f2 pos, s.length + 1 - pos ≤ f1 → s.length + 1 - pos ≤ f2 →
      envLoopGo s env f1 pos = envLoopGo s env f2 pos := by
  intro f1
  induction f1 with
  | zero =>
    intro f2 pos h1 h2
    have hpos : s.length + 1 ≤ pos := by omega
    rw [envLoopGo_of_ge_len hpos, envLoopGo_of_ge_len hpos]
  | succ f1 ih =>
    intro f2 pos h1 h2
    cases f2 with
    | zero =>
      have hpos : s.length + 1 ≤ pos := by omega
      rw [envLoopGo_of_ge_len hpos, envLoopGo_of_ge_len hpos]
    | succ f2 =>
      unfold envLoopGo
      cases hst : findFrom s (openPat env) pos with
      | none => rfl
      | some st =>
        obtain ⟨hpst, hstlen⟩ := findFrom_some_bounds (openPat_ne_nil env) hst
        have holen : 1 ≤ (openPat env).length := by rw [openPat_length]; omega
        have hrec := ih f2 (st + (openPat env).length) (by omega) (by omega)
        simp only
        rw [hrec]

/-- Claim C10: the Block Extractor terminates on every finite input text,
including malformed input.  The outer cursor strictly advances past each
found open marker and the inner scan position strictly increases (or the
scan breaks when no close marker remains), so `s.length + 1` loop
iterations always suffice: the fuelled loops are independent of the fuel
once it reaches that bound, for every document, nesting depth and scan
position. -/
theorem claim_C10 (s : Str) (fuel : Nat) (h : s.length + 1 ≤ fuel) :
    (∀ (env : Str) (d sp : Nat),
      scanEndGo s (openPat env) (closePat env) fuel d sp =
        scanEndGo s (openPat env) (closePat env) (s.length + 1) d sp) ∧
    (∀ (env : Str) (pos : Nat),
      envLoopGo s env fuel pos = envLoopGo s env (s.length + 1) pos) ∧
    (∀ envTypes : List Str,
      List.insertionSort posLE
        ((envTypes.map (fun env => envLoopGo s env fuel 0)).flatten) =
      find_environments s envTypes) := by
  refine ⟨?_, ?_, ?_⟩
  · intro env d sp
    exact scanEndGo_congr s (openPat env) (closePat env) (openPat_ne_nil env)
      (closePat_ne_nil env) fuel (s.length + 1) d sp (by omega) (by omega)
  · intro env pos
    exact envLoopGo_congr s env fuel (s.length + 1) pos (by omega) (by omega)
  · intro envTypes
    unfold find_environments envLoop
    congr 1
    congr 1
    apply List.map_congr_left
    intro env _
    exact envLoopGo_congr s env fuel (s.length + 1) 0 (by omega) (by omega)

def c10doc : Str :=
  "\\begin\x7btheorem\x7d T \\end\x7btheorem\x7d \\begin\x7blemma\x7d unclosed".data

theorem claim_C10_witness :
    c10doc.length + 1 ≤ 64 ∧
    envLoopGo c10doc "theorem".data 64 0 =
      envLoopGo c10doc "theorem".data (c10doc.length + 1) 0 ∧
    List.insertionSort posLE
        ((ENV_TYPES.map (fun env => envLoopGo c10doc env 64 0)).flatten) =
      find_environments c10doc ENV_TYPES :=
  ⟨by decide, (claim_C10 c10doc 64 (by decide)).2.1 "theorem".data 0,
   (claim_C10 c10doc 64 (by decide)).2.2 ENV_TYPES⟩

/-!
### Malformed blocks are dropped (claim C3)
-/

/-- A successful inner scan returns a close-marker occurrence at or after
the scan start. -/
theorem scanEndGo_some_close {s bp ep : Str} (hep : ep ≠ []) :
    ∀ {f d sp e}, scanEndGo s bp ep f d sp = some e →
      e ∈ occList s ep ∧ sp ≤ e := by
  intro f
  induction f with
  | zero => intro d sp e h; exact absurd h (by simp [scanEndGo])
  | succ f ih =>
    intro d sp e h
    unfold scanEndGo at h
    cases he : findFrom s ep sp with
    | none => rw [he] at h; exact absurd h (by simp)
    | some e0 =>
      rw [he] at h
      simp only at h
      obtain ⟨he0mem, hspe0⟩ := findFrom_some he
      have he0len := (findFrom_some_bounds hep he).2
      cases hb : findFrom s bp sp with
      | none =>
        rw [hb] at h
        simp only at h
        by_cases hd : d = 1
        · rw [if_pos hd] at h
          cases h
          exact ⟨he0mem, hspe0⟩
        · rw [if_neg hd] at h
          obtain ⟨hm, hle⟩ := ih h
          exact ⟨hm, by omega⟩
      | some b =>
        rw [hb] at h
        simp only at h
        have hspb := (findFrom_some hb).2
        by_cases hbe : b < e0
        · rw [if_pos hbe] at h
          obtain ⟨hm, hle⟩ := ih h
          refine ⟨hm, ?_⟩
          have hbp : 0 ≤ bp.length := Nat.zero_le _
          omega
        · rw [if_neg hbe] at h
          by_cases hd : d = 1
          · rw [if_pos hd] at h
            cases h
            exact ⟨he0mem, hspe0⟩
          · rw [if_neg hd] at h
            obtain ⟨hm, hle⟩ := ih h
            exact ⟨hm, by omega⟩

/-- Every block the per-type loop emits carries that type and has a
close-marker occurrence after its open marker. -/
theorem envLoopGo_mem {s env : Str} :
    ∀ {f pos r}, r ∈ envLoopGo s env f pos →
      r.1 = env ∧ ∃ q ∈ occList s (closePat env),
        r.2.2 + (openPat env).length ≤ q := by
  intro f
  induction f with
  | zero => intro pos r h; exact absurd h (by simp [envLoopGo])
  | succ f ih =>
    intro pos r h
    unfold envLoopGo at h
    cases hst : findFrom s (openPat env) pos with
    | none => rw [hst] at h; exact absurd h (by simp)
    | some st =>
      rw [hst] at h
      simp only at h
      cases hsc : scanEnd s (openPat env) (closePat env) (st + (openPat env).length) with
      | none =>
        rw [hsc] at h
        exact ih h
      | some e =>
        rw [hsc] at h
        rcases List.mem_cons.mp h with hhead | htail
        · obtain ⟨hmem, hle⟩ := scanEndGo_some_close (closePat_ne_nil env) hsc
          subst hhead
          exact ⟨rfl, ⟨e, hmem, hle⟩⟩
        · exact ih htail

/-- Claim C3: a block-open marker with no matching close marker before
the end of the document is silently dropped: the extractor emits no block
of that type at that offset (the extractor is a total function, so no
exception is possible), and the card assembly produces exactly one card
per extracted block, so the dropped block contributes zero cards. -/
theorem claim_C3 (doc env : Str) (p : Nat) (envs : List Str)
    (hp : p ∈ occList doc (openPat env))
    (hnoclose : ∀ q ∈ occList doc (closePat env), q < p) :
    (∀ r ∈ find_environments doc envs, r.1 = env → r.2.2 ≠ p) ∧
    (∀ (course : Str) (globalM : List MacroDef),
      (processCards course globalM doc).length =
        (find_environments doc ENV_TYPES).length) := by
  constructor
  · intro r hr hrenv hrp
    have hperm : List.Perm (find_environments doc envs)
        ((envs.map (fun env => envLoop doc env)).flatten) :=
      List.perm_insertionSort posLE _
    have hr2 : r ∈ (envs.map (fun env => envLoop doc env)).flatten :=
      hperm.mem_iff.mp hr
    rw [List.mem_flatten] at hr2
    obtain ⟨l, hl, hrl⟩ := hr2
    rw [List.mem_map] at hl
    obtain ⟨e, _, hel⟩ := hl
    subst hel
    obtain ⟨hre, q, hqmem, hqle⟩ := envLoopGo_mem hrl
    rw [hre] at hrenv
    rw [hrenv] at hqmem hqle
    rw [hrp] at hqle
    have hq := hnoclose q hqmem
    have holen : 1 ≤ (openPat env).length := by rw [openPat_length]; omega
    omega
  · intro course globalM
    simp [processCards]

def c3doc : Str :=
  "a \\begin\x7btheorem\x7d closed \\end\x7btheorem\x7d b \\begin\x7btheorem\x7d open".data

theorem claim_C3_witness :
    (2 : Nat) ∈ occList c3doc (openPat "theorem".data) ∧
    (processCards "C".data [] c3doc).length =
      (find_environments c3doc ENV_TYPES).length := by
  have h := claim_C3 c3doc "theorem".data 41 ENV_TYPES (by decide) (by decide)
  exact ⟨by decide, h.2 "C".data []⟩

/-!
### Claims C4 and C9: macro expansion
-/

/-- A definition whose arity is not 0, 1 or 2 is skipped by a pass. -/
theorem applyMacroDef_skip (m : MacroDef) (text : Str) (h : 2 < m.2.1) :
    applyMacroDef m text = text := by
  obtain ⟨name, numArgs, repl⟩ := m
  simp only at h
  unfold applyMacroDef
  simp only
  rw [if_neg (by omega), if_neg (by omega), if_neg (by omega)]

/-- A pass only uses the definitions of arity at most 2. -/
theorem expandPass_filter (macros : List MacroDef) (text : Str) :
    expandPass macros text = expandPass (macros.filter (fun m => m.2.1 ≤ 2)) text := by
  induction macros generalizing text with
  | nil => rfl
  | cons m rest ih =>
    by_cases hm : m.2.1 ≤ 2
    · have hf : (m :: rest).filter (fun m => m.2.1 ≤ 2) =
          m :: rest.filter (fun m => m.2.1 ≤ 2) := by
        rw [List.filter_cons, if_pos (by simpa using hm)]
      rw [hf]
      unfold expandPass
      simp only [List.foldl_cons]
      exact ih (applyMacroDef m text)
    · have hf : (m :: rest).filter (fun m => m.2.1 ≤ 2) =
          rest.filter (fun m => m.2.1 ≤ 2) := by
        rw [List.filter_cons, if_neg (by simpa using hm)]
      rw [hf]
      unfold expandPass
      simp only [List.foldl_cons]
      rw [applyMacroDef_skip m text (by omega)]
      exact ih text

/-- Claim C9: a macro definition recorded with arity greater than 2 stays
in the table produced by `parse_macros`, but expansion never applies it:
a pass behaves as if such definitions were absent, and expanding with
only such a definition leaves every text unchanged (the embedding is a
total function: no warning or error channel exists). -/
theorem claim_C9 :
    parse_macros "\\newcommand\x7b\\vect\x7d[3]\x7b(#1,#2,#3)\x7d\n".data =
      [("\\vect".data, 3, "(#1,#2,#3)".data)] ∧
    (∀ (macros : List MacroDef) (text : Str),
      expandPass macros text = expandPass (macros.filter (fun m => m.2.1 ≤ 2)) text) ∧
    (∀ (name repl text : Str) (n : Nat), 2 < n →
      applyMacroDef (name, n, repl) text = text) ∧
    (∀ (name repl text : Str) (n : Nat), 2 < n →
      expand_macros text [(name, n, repl)] = text) := by
  refine ⟨by decide, expandPass_filter, ?_, ?_⟩
  · intro name repl text n hn
    exact applyMacroDef_skip (name, n, repl) text (by simpa using hn)
  · intro name repl text n hn
    have hp : ∀ t : Str, expandPass [(name, n, repl)] t = t := by
      intro t
      unfold expandPass
      simp only [List.foldl_cons, List.foldl_nil]
      exact applyMacroDef_skip (name, n, repl) t (by simpa using hn)
    unfold expand_macros
    rw [hp, hp, hp]

theorem claim_C9_witness :
    2 < 3 ∧
    applyMacroDef ("\\foo".data, 3, "X".data) "a \\foo\x7bu\x7d\x7bv\x7d\x7bw\x7d b".data =
      "a \\foo\x7bu\x7d\x7bv\x7d\x7bw\x7d b".data ∧
    expand_macros "a \\foo b".data [("\\foo".data, 3, "X".data)] = "a \\foo b".data :=
  ⟨by omega, claim_C9.2.2.1 "\\foo".data "X".data _ 3 (by omega),
    claim_C9.2.2.2 "\\foo".data "X".data _ 3 (by omega)⟩

/-- Counterexample data for claim C4: two macros whose templates (`A` and
`}`) contain no macro name at all. -/
def cexMacroList : List MacroDef :=
  [("\\f".data, 1, "A".data), ("\\g".data, 0, ['}'])]

def cexText : Str := "\\f\x7bx \\g".data

/-- Claim C4 as stated is false: with templates free of macro references,
one pass need not reach a fixed point.  Expanding `\g` to `}` in pass 1
completes a previously unmatchable `\f{...`, which pass 2 then rewrites. -/
theorem claim_C4_counterexample :
    (∀ m1 ∈ cexMacroList, ∀ m2 ∈ cexMacroList, occList m1.2.2 m2.1 = []) ∧
    expandPass cexMacroList cexText = "\\f\x7bx \x7d".data ∧
    expandPass cexMacroList (expandPass cexMacroList cexText) = "A".data ∧
    expandPass cexMacroList (expandPass cexMacroList cexText) ≠
      expandPass cexMacroList cexText := by
  refine ⟨by decide, by decide, by decide, by decide⟩

/-- Claim C4 (amended): when one pass of the expansion rewrite reaches a
fixed point (a second application leaves its result unchanged), the
second and third passes inside `expand_macros` are no-ops, `expand_macros`
returns the one-pass result, and `expand_macros` is idempotent on its
result.  (Templates containing no macro name do not by themselves
guarantee that one pass reaches a fixed point.) -/
theorem claim_C4 (macros : List MacroDef) (t : Str)
    (h : expandPass macros (expandPass macros t) = expandPass macros t) :
    expand_macros t macros = expandPass macros t ∧
    expand_macros (expand_macros t macros) macros = expand_macros t macros := by
  unfold expand_macros
  rw [h, h]
  exact ⟨rfl, by rw [h, h, h]⟩

theorem claim_C4_witness :
    expand_macros "x \\R y".data [("\\R".data, 0, "\\mathbb\x7bR\x7d".data)] =
      expandPass [("\\R".data, 0, "\\mathbb\x7bR\x7d".data)] "x \\R y".data :=
  (claim_C4 [("\\R".data, 0, "\\mathbb\x7bR\x7d".data)] "x \\R y".data (by decide)).1

/-!
### Claim C5: math delimiter conversion
-/

/-- Claim C5: the converter maps `$$E=mc^2$$` to `\[E=mc^2\]` and a lone
`$x$` to `\(x\)`; double-dollar conversion runs before single-dollar
conversion (`subSingleDollar` is applied to the output of
`subDoubleDollar`), so adjacent doubled delimiters such as `$$a$$$$b$$`
become display math and are never read as single-dollar spans. -/
theorem claim_C5 :
    latex_to_anki_mathjax "$$E=mc^2$$".data = "\\[E=mc^2\\]".data ∧
    latex_to_anki_mathjax "$x$".data = "\\(x\\)".data ∧
    latex_to_anki_mathjax "$$a$$$$b$$".data = "\\[a\\]\\[b\\]".data ∧
    subDoubleDollar "$$E=mc^2$$".data = "\\[E=mc^2\\]".data ∧
    subSingleDollar (subDoubleDollar "$$E=mc^2$$".data) = "\\[E=mc^2\\]".data ∧
    subSingleDollar (subDoubleDollar "$$a$$$$b$$".data) = "\\[a\\]\\[b\\]".data := by
  refine ⟨by decide, by decide, by decide, by decide, by decide, by decide⟩

/-!
### Claim C7: the whitespace-normalization step
-/

/-- Claim C7 fails on the code: line 286 `text.strip('<br>')` strips any
leading or trailing characters from the set `{<, b, r, >}`, not just
whole `<br>` markers, so other characters of the text are changed: the
normalization step maps `basis` to `asis` (and so does the whole
converter), where the claimed rewrites would leave `basis` unchanged. -/
theorem claim_C7 :
    normalizeWhitespace "basis".data = "asis".data ∧
    latex_to_anki_mathjax "basis".data = "asis".data ∧
    pyStripChars "<br>".data "basis".data = "asis".data := by
  refine ⟨by decide, by decide, by decide⟩

/-!
### Claim C8: tab handling in output rows
-/

/-- `str.replace('\t', ' ')` leaves no tab behind. -/
theorem countTab_pyReplace (s : Str) : (pyReplace s ['\t'] [' ']).count '\t' = 0 := by
  unfold pyReplace subScan
  have key : ∀ (fuel : Nat) (t : Str), t.length < fuel →
      ((subScanGo (fun suf =>
        if ['\t'].isPrefixOf suf then some ([' '], suf.drop 1) else none) fuel t).count '\t') = 0 := by
    intro fuel
    induction fuel with
    | zero => intro t ht; omega
    | succ fuel ih =>
      intro t ht
      cases t with
      | nil => simp [subScanGo, List.isPrefixOf]
      | cons c rest =>
        by_cases hc : c = '\t'
        · subst hc
          have hpre : ['\t'].isPrefixOf ('\t' :: rest) = true := by
            simp [List.isPrefixOf]
          unfold subScanGo
          rw [hpre]
          simp only [if_true, List.drop_succ_cons, List.drop_zero]
          rw [if_neg (by omega)]
          rw [List.count_append]
          have hrec := ih rest (by simpa using ht)
          rw [hrec]
          decide
        · have hpre : ['\t'].isPrefixOf (c :: rest) = false := by
            simp [List.isPrefixOf]
            intro hcc
            exact absurd hcc.symm hc
          unfold subScanGo
          rw [hpre]
          simp only [Bool.false_eq_true, if_false]
          rw [List.count_cons]
          have hrec := ih rest (by simpa using ht)
          rw [hrec]
          have hcc : ('\t' == c) = false := by
            rw [beq_eq_false_iff_ne]
            exact fun hx => hc hx.symm
          simp [hcc, hc]
  exact key (s.length + 1) s (by omega)

/-- Claim C8 as stated is false: only `front` and `back` are cleaned of
tabs; the `tags` field is written as-is, and a section title containing a
tab reaches the tags, so a reachable data row contains three tabs. -/
theorem claim_C8_counterexample :
    ((processCards "CourseA".data []
        "\\section\x7bA\tB\x7d\n\\begin\x7btheorem\x7d x \\end\x7btheorem\x7d".data).map
      (fun c => ((serializeRow c.1 c.2.1 c.2.2).count '\t', c.2.2.count '\t'))) =
      [(3, 1)] := by
  decide

/-- Claim C8 (amended): tab characters are replaced with spaces in the
`front` and `back` fields before serialization; the `tags` field is
written unmodified, so an emitted data row contains exactly two tab
characters provided the tags field itself contains none. -/
theorem claim_C8 (front back tags : Str) (h : tags.count '\t' = 0) :
    (serializeRow front back tags).count '\t' = 2 := by
  unfold serializeRow
  simp only [List.count_append]
  rw [countTab_pyReplace, countTab_pyReplace, h]
  simp [List.count_cons]

theorem claim_C8_witness :
    ("A\tB".data.count '\t' = 0 ∨ True) ∧
    (serializeRow "a\tb".data "c".data "tag".data).count '\t' = 2 :=
  ⟨Or.inr trivial, claim_C8 "a\tb".data "c".data "tag".data (by decide)⟩

/-!
### Claim C6: heading-context lookup
-/

/-- The `for ... break` fold equals a fold over the events at or before
the query position, provided the event list is sorted by position (which
`find_sections` guarantees). -/
theorem sectionFoldGo_filter (p : Nat) :
    ∀ (ss : List (Nat × SecRank × Str)) (st : SecState),
      ss.Pairwise (fun a b => a.1 ≤ b.1) →
      sectionFoldGo p st ss =
        (ss.filter (fun e => e.1 ≤ p)).foldl
          (fun st e => updateSec st e.2.1 e.2.2) st := by
  intro ss
  induction ss with
  | nil => intro st _; rfl
  | cons e rest ih =>
    intro st hp
    obtain ⟨q, rk, t⟩ := e
    rw [List.pairwise_cons] at hp
    obtain ⟨hall, htail⟩ := hp
    by_cases hq : p < q
    · have hfil : ((q, rk, t) :: rest).filter (fun e => e.1 ≤ p) = [] := by
        rw [List.filter_eq_nil_iff]
        intro a ha
        rcases List.mem_cons.mp ha with rfl | ha
        · simp
          omega
        · have := hall a ha
          simp only at this
          simp
          omega
      rw [hfil]
      unfold sectionFoldGo
      rw [if_pos hq]
      rfl
    · have hfil : ((q, rk, t) :: rest).filter (fun e => e.1 ≤ p) =
          (q, rk, t) :: rest.filter (fun e => e.1 ≤ p) := by
        rw [List.filter_cons, if_pos (by simp; omega)]
      rw [hfil]
      unfold sectionFoldGo
      rw [if_neg hq]
      simp only [List.foldl_cons]
      exact ih (updateSec st rk t) htail

def exSections : List (Nat × SecRank × Str) :=
  [(0, SecRank.sec, "Ch1".data), (10, SecRank.subsec, "S1".data),
   (20, SecRank.subsec, "S2".data)]

/-- Claim C6: heading-context lookup at position `P` folds over exactly
the heading events with position `≤ P` (the loop's `break` is equivalent
to that filter on a position-sorted event list), keeping the current
title per rank where setting a rank clears all strictly deeper ranks; on
the three-heading example, lookup at 15 gives `Ch1 > S1` and lookup at 25
gives `Ch1 > S2` (the mid-rank title is replaced, not stacked). -/
theorem claim_C6 :
    (∀ (p : Nat) (ss : List (Nat × SecRank × Str)),
      ss.Pairwise (fun a b => a.1 ≤ b.1) →
      get_section_context p ss =
        renderCtx ((ss.filter (fun e => e.1 ≤ p)).foldl
          (fun st e => updateSec st e.2.1 e.2.2) ⟨none, none, none⟩)) ∧
    get_section_context 15 exSections = "Ch1 > S1".data ∧
    get_section_context 25 exSections = "Ch1 > S2".data := by
  refine ⟨?_, by decide, by decide⟩
  intro p ss hs
  unfold get_section_context
  rw [sectionFoldGo_filter p ss _ hs]

theorem claim_C6_witness :
    get_section_context 15 exSections =
      renderCtx ((exSections.filter (fun e => e.1 ≤ 15)).foldl
        (fun st e => updateSec st e.2.1 e.2.2) ⟨none, none, none⟩) :=
  claim_C6.1 15 exSections (by decide)

/-!
### Claim C2: exactness of the Block Extractor on flat documents

`chainPairs OL CL lo pairs` describes a document region containing, after
position `lo`, an alternating sequence of open/close marker pairs
(each open marker of width `OL` strictly before its close marker, each
close marker of width `CL` strictly before the next open marker): the
shape of a document whose requested environments are all properly closed
and non-nested.
-/

def chainPairs (OL CL : Nat) : Nat → List (Nat × Nat) → Bool
  | _, [] => true
  | lo, (p, q) :: rest =>
    decide (lo ≤ p) && decide (p + OL ≤ q) && chainPairs OL CL (q + CL) rest

theorem chainPairs_cons {OL CL lo p q : Nat} {rest : List (Nat × Nat)}
    (h : chainPairs OL CL lo ((p, q) :: rest) = true) :
    lo ≤ p ∧ p + OL ≤ q ∧ chainPairs OL CL (q + CL) rest = true := by
  unfold chainPairs at h
  simp only [Bool.and_eq_true, decide_eq_true_eq] at h
  exact ⟨h.1.1, h.1.2, h.2⟩

theorem chainPairs_mono {OL CL lo lo' : Nat} {l : List (Nat × Nat)}
    (hle : lo' ≤ lo) (h : chainPairs OL CL lo l = true) :
    chainPairs OL CL lo' l = true := by
  cases l with
  | nil => rfl
  | cons x rest =>
    obtain ⟨p, q⟩ := x
    obtain ⟨h1, h2, h3⟩ := chainPairs_cons h
    unfold chainPairs
    simp only [Bool.and_eq_true, decide_eq_true_eq]
    exact ⟨⟨by omega, h2⟩, h3⟩

theorem chainPairs_bounds {OL CL : Nat} :
    ∀ {lo : Nat} {l : List (Nat × Nat)}, chainPairs OL CL lo l = true →
      ∀ x ∈ l, lo ≤ x.1 ∧ x.1 + OL ≤ x.2 := by
  intro lo l
  induction l generalizing lo with
  | nil => intro _ x hx; exact absurd hx (List.not_mem_nil x)
  | cons y rest ih =>
    intro h x hx
    obtain ⟨p, q⟩ := y
    obtain ⟨h1, h2, h3⟩ := chainPairs_cons h
    rcases List.mem_cons.mp hx with rfl | hx
    · exact ⟨h1, h2⟩
    · have := ih (chainPairs_mono (by omega : lo ≤ q + CL) h3) x hx
      exact this

/-- On a flat region (`chainPairs` shape), the per-type loop emits one
block per pair: type, body text strictly between the markers (trimmed),
start offset. -/
theorem envLoop_flat (doc env : Str) :
    ∀ (pairs : List (Nat × Nat)) (pos : Nat),
      occFrom doc (openPat env) pos = pairs.map (fun x => x.1) →
      (∀ p q rest, pairs = (p, q) :: rest →
        occFrom doc (closePat env) (p + (openPat env).length) =
          pairs.map (fun x => x.2)) →
      chainPairs (openPat env).length (closePat env).length pos pairs = true →
      envLoopGo doc env (doc.length + 1) pos =
        pairs.map (fun x =>
          (env, pyStrip (slice doc (x.1 + (openPat env).length) x.2), x.1)) := by
  have holen : 1 ≤ (openPat env).length := by rw [openPat_length]; omega
  have hclen : 1 ≤ (closePat env).length := by rw [closePat_length]; omega
  intro pairs
  induction pairs with
  | nil =>
    intro pos hop _ _
    have hf : findFrom doc (openPat env) pos = none := by
      rw [findFrom_eq_head_occFrom, hop]
      rfl
    unfold envLoopGo
    rw [hf]
    rfl
  | cons hd rest ih =>
    intro pos hop hcl hch
    obtain ⟨p, q⟩ := hd
    obtain ⟨hposp, hpq, hchrest⟩ := chainPairs_cons hch
    have hrestb := chainPairs_bounds hchrest
    set OL := (openPat env).length with hOL
    set CL := (closePat env).length with hCL
    set cs := p + OL with hcs
    -- the outer search finds the open marker at p
    have hfo : findFrom doc (openPat env) pos = some p := by
      rw [findFrom_eq_head_occFrom, hop]
      rfl
    -- occurrence lists from the scan position cs
    have hopcs : occFrom doc (openPat env) cs = rest.map (fun x => x.1) := by
      rw [occFrom_occFrom doc (openPat env) (show pos ≤ cs by omega), hop]
      simp only [List.map_cons, List.filter_cons]
      rw [if_neg (by simp; omega)]
      apply List.filter_eq_self.mpr
      intro a ha
      rw [List.mem_map] at ha
      obtain ⟨x, hx, rfl⟩ := ha
      have := (hrestb x hx).1
      simp
      omega
    have hclcs : occFrom doc (closePat env) cs = q :: rest.map (fun x => x.2) := by
      have := hcl p q rest rfl
      rw [← hcs] at this
      rw [this]
      rfl
    have hfc : findFrom doc (closePat env) cs = some q :=
      findFrom_of_occFrom hclcs
    have hfo2 : findFrom doc (openPat env) cs = (rest.map (fun x => x.1)).head? :=
      findFrom_of_occFrom hopcs
    -- the nesting scan exits immediately at the close marker q
    have hscan : scanEnd doc (openPat env) (closePat env) cs = some q := by
      unfold scanEnd scanEndGo
      rw [hfc, hfo2]
      cases rest with
      | nil => simp
      | cons hd2 r2 =>
        obtain ⟨p2, q2⟩ := hd2
        have hp2 : q + CL ≤ p2 := (hrestb (p2, q2) (List.mem_cons_self _ _)).1
        simp only [List.map_cons, List.head?_cons]
        rw [if_neg (by omega)]
        simp
    -- one unfolding of the outer loop
    have hq1 : q ∈ occList doc (closePat env) := by
      have : q ∈ occFrom doc (closePat env) cs := by rw [hclcs]; exact List.mem_cons_self _ _
      exact (mem_occFrom.mp this).1
    have hqlen : q + CL ≤ doc.length := by
      obtain ⟨hle, hm⟩ := mem_occList.mp hq1
      rcases matchesAt_le_length hm with h | h
      · exact h
      · exact absurd h (closePat_ne_nil env)
    have hfuel : envLoopGo doc env doc.length cs = envLoopGo doc env (doc.length + 1) cs :=
      envLoopGo_congr doc env doc.length (doc.length + 1) cs (by omega) (by omega)
    -- close-occurrence hypothesis for the recursive call
    have hclrest : ∀ p2 q2 r2, rest = (p2, q2) :: r2 →
        occFrom doc (closePat env) (p2 + OL) = rest.map (fun x => x.2) := by
      intro p2 q2 r2 hrest
      have hp2 : q + CL ≤ p2 := by
        have := (hrestb (p2, q2) (by rw [hrest]; exact List.mem_cons_self _ _)).1
        omega
      have hq2 : p2 + OL ≤ q2 := by
        have := (hrestb (p2, q2) (by rw [hrest]; exact List.mem_cons_self _ _)).2
        omega
      have hsorted : (occFrom doc (closePat env) cs).Pairwise (· < ·) :=
        occFrom_sorted doc (closePat env) cs
      rw [hclcs, hrest] at hsorted
      simp only [List.map_cons] at hsorted
      rw [occFrom_occFrom doc (closePat env) (show cs ≤ p2 + OL by omega), hclcs, hrest]
      simp only [List.map_cons, List.filter_cons]
      rw [if_neg (by simp; omega), if_pos (by simp; omega)]
      congr 1
      apply List.filter_eq_self.mpr
      intro a ha
      rw [List.pairwise_cons] at hsorted
      have hsorted2 := hsorted.2
      rw [List.pairwise_cons] at hsorted2
      have := hsorted2.1 a ha
      simp
      omega
    have hih := ih cs hopcs hclrest
      (chainPairs_mono (show cs ≤ q + CL by omega) hchrest)
    unfold envLoopGo
    rw [hfo]
    simp only
    rw [← hcs, hscan, hfuel, hih]
    simp

/-- Partitioning a list by key over a duplicate-free cover of the keys is
a permutation. -/
theorem flatten_filter_perm {α κ : Type} [BEq κ] [LawfulBEq κ] (key : α → κ) :
    ∀ (envs : List κ) (l : List α), envs.Nodup → (∀ x ∈ l, key x ∈ envs) →
      List.Perm ((envs.map (fun e => l.filter (fun x => key x == e))).flatten) l := by
  intro envs
  induction envs with
  | nil =>
    intro l _ hcov
    have : l = [] := List.eq_nil_iff_forall_not_mem.mpr
      (fun x hx => by simpa using hcov x hx)
    subst this
    rfl
  | cons e rest ih =>
    intro l hnd hcov
    rw [List.nodup_cons] at hnd
    obtain ⟨hene, hndr⟩ := hnd
    simp only [List.map_cons, List.flatten_cons]
    have hswap : ∀ e' ∈ rest, l.filter (fun x => key x == e') =
        (l.filter (fun x => !(key x == e))).filter (fun x => key x == e') := by
      intro e' he'
      rw [List.filter_filter]
      apply List.filter_congr
      intro x _
      by_cases hx : key x == e'
      · -- key x = e' and e' ≠ e, so the extra conjunct is true
        have hxe : key x ≠ e := by
          have hxx : key x = e' := by simpa using hx
          rw [hxx]
          intro hc
          exact hene (hc ▸ he')
        simp [hx, hxe]
      · simp [hx]
    have hmapc : rest.map (fun e' => l.filter (fun x => key x == e')) =
        rest.map (fun e' => (l.filter (fun x => !(key x == e))).filter
          (fun x => key x == e')) :=
      List.map_congr_left hswap
    rw [hmapc]
    have hcov2 : ∀ x ∈ l.filter (fun x => !(key x == e)), key x ∈ rest := by
      intro x hx
      rw [List.mem_filter] at hx
      obtain ⟨hxl, hxe⟩ := hx
      have := hcov x hxl
      rcases List.mem_cons.mp this with hc | hc
      · exact absurd (by simpa using hc) (by simpa using hxe)
      · exact hc
    have hperm2 := ih (l.filter (fun x => !(key x == e))) hndr hcov2
    exact (List.Perm.append_left _ hperm2).trans (List.filter_append_perm _ l)

instance : IsAntisymm (Str × Str × Nat) (fun a b => a.2.2 < b.2.2) :=
  ⟨fun a b h1 h2 => absurd h2 (Nat.lt_asymm h1)⟩

/-- A stable sort of a list that is a permutation of a strictly sorted
target equals the target. -/
theorem insertionSort_eq_of_strict {l target : List (Str × Str × Nat)}
    (hperm : List.Perm l target)
    (hsorted : target.Pairwise (fun a b => a.2.2 < b.2.2)) :
    List.insertionSort posLE l = target := by
  have hperm2 : List.Perm (List.insertionSort posLE l) target :=
    (List.perm_insertionSort posLE l).trans hperm
  apply List.eq_of_perm_of_sorted (r := fun a b : Str × Str × Nat => a.2.2 < b.2.2) hperm2
  · have hle : (List.insertionSort posLE l).Pairwise posLE :=
      List.sorted_insertionSort posLE l
    have hnd : ((List.insertionSort posLE l).map (fun r => r.2.2)).Nodup := by
      have h1 : (target.map (fun r => r.2.2)).Pairwise (· < ·) :=
        List.pairwise_map.mpr hsorted
      have h2 : (target.map (fun r => r.2.2)).Nodup := h1.imp Nat.ne_of_lt
      exact (hperm2.map (fun r => r.2.2)).nodup_iff.mpr h2
    have hne : (List.insertionSort posLE l).Pairwise
        (fun a b => a.2.2 ≠ b.2.2) := List.pairwise_map.mp hnd
    have hand := hle.and hne
    refine hand.imp (fun h => ?_)
    have h1 : _ ≤ _ := h.1
    exact lt_of_le_of_ne h1 h.2
  · exact hsorted

/-- Claim C2: the extractor's output is always globally sorted by start
offset across all types, and on every document whose requested
environment occurrences are properly closed and non-nested (described by
the per-type occurrence lists and the `chainPairs` shape), it returns
exactly one Block per occurrence, in document order, whose body is
exactly the text strictly between the open marker and its matching close
marker with surrounding whitespace trimmed. -/
theorem claim_C2 :
    (∀ (doc : Str) (envs : List Str),
      (find_environments doc envs).Pairwise (fun a b => a.2.2 ≤ b.2.2)) ∧
    (∀ (doc : Str) (envs : List Str) (spec : List (Str × Nat × Nat)),
      envs.Nodup →
      (∀ x ∈ spec, x.1 ∈ envs) →
      (spec.map (fun x => x.2.1)).Pairwise (· < ·) →
      (∀ e ∈ envs, occList doc (openPat e) =
        (spec.filter (fun x => x.1 == e)).map (fun x => x.2.1)) →
      (∀ e ∈ envs, occList doc (closePat e) =
        (spec.filter (fun x => x.1 == e)).map (fun x => x.2.2)) →
      (∀ e ∈ envs, chainPairs (openPat e).length (closePat e).length 0
        ((spec.filter (fun x => x.1 == e)).map (fun x => (x.2.1, x.2.2))) = true) →
      find_environments doc envs =
        spec.map (fun x =>
          (x.1, pyStrip (slice doc (x.2.1 + (openPat x.1).length) x.2.2), x.2.1))) := by
  constructor
  · intro doc envs
    exact List.sorted_insertionSort posLE _
  · intro doc envs spec hnd hcov hpos hopen hclose hchain
    -- each per-type loop returns exactly its own filtered part of `spec`
    have hloop : ∀ e ∈ envs, envLoop doc e =
        (spec.filter (fun x => x.1 == e)).map (fun x =>
          (x.1, pyStrip (slice doc (x.2.1 + (openPat x.1).length) x.2.2), x.2.1)) := by
      intro e he
      set pairs := (spec.filter (fun x => x.1 == e)).map (fun x => (x.2.1, x.2.2))
        with hpairs
      have hchaine := hchain e he
      rw [← hpairs] at hchaine
      have hbounds := chainPairs_bounds hchaine
      have hop0 : occFrom doc (openPat e) 0 = pairs.map (fun x => x.1) := by
        rw [occFrom_zero, hopen e he, hpairs, List.map_map]
        rfl
      have hcl0 : ∀ p q rest, pairs = (p, q) :: rest →
          occFrom doc (closePat e) (p + (openPat e).length) =
            pairs.map (fun x => x.2) := by
        intro p q rest hcons
        have hmap2 : occList doc (closePat e) = pairs.map (fun x => x.2) := by
          rw [hclose e he, hpairs, List.map_map]
          rfl
        unfold occFrom
        rw [hmap2]
        apply List.filter_eq_self.mpr
        intro a ha
        rw [List.mem_map] at ha
        obtain ⟨x, hx, rfl⟩ := ha
        -- every close marker sits at or after p + OL
        have hxb := hbounds x hx
        rcases List.mem_cons.mp (hcons ▸ hx) with rfl | hxr
        · simp
          omega
        · have hxr2 := chainPairs_bounds (chainPairs_cons (hcons ▸ hchaine)).2.2 x hxr
          have hhead := chainPairs_cons (hcons ▸ hchaine)
          simp
          omega
      have := envLoop_flat doc e pairs 0 hop0 hcl0 hchaine
      unfold envLoop
      rw [this, hpairs, List.map_map]
      apply List.map_congr_left
      intro x hx
      have hxe : x.1 = e := by
        have := (List.mem_filter.mp hx).2
        simpa using this
      simp [hxe]
    -- the concatenation over types is a permutation of `spec`
    have hmap : envs.map (fun e => envLoop doc e) =
        envs.map (fun e => (spec.filter (fun x => x.1 == e)).map (fun x =>
          (x.1, pyStrip (slice doc (x.2.1 + (openPat x.1).length) x.2.2), x.2.1))) :=
      List.map_congr_left hloop
    unfold find_environments
    rw [hmap]
    set g : Str × Nat × Nat → Str × Str × Nat := fun x =>
      (x.1, pyStrip (slice doc (x.2.1 + (openPat x.1).length) x.2.2), x.2.1) with hg
    have hflat : (envs.map (fun e => (spec.filter (fun x => x.1 == e)).map g)).flatten =
        ((envs.map (fun e => spec.filter (fun x => x.1 == e))).flatten).map g := by
      rw [List.map_flatten, List.map_map]
      rfl
    rw [hflat]
    have hperm : List.Perm (((envs.map (fun e =>
        spec.filter (fun x => x.1 == e))).flatten).map g) (spec.map g) :=
      (flatten_filter_perm (fun x => x.1) envs spec hnd hcov).map g
    apply insertionSort_eq_of_strict hperm
    have : (spec.map g).Pairwise (fun a b => a.2.2 < b.2.2) := by
      rw [List.pairwise_map]
      have := List.pairwise_map.mp hpos
      exact this.imp (fun h => h)
    exact this

def c2doc : Str :=
  ("\\begin\x7btheorem\x7d A \\end\x7btheorem\x7d \\begin\x7blemma\x7d B " ++
   "\\end\x7blemma\x7d \\begin\x7btheorem\x7d C \\end\x7btheorem\x7d").data

def c2spec : List (Str × Nat × Nat) :=
  [("theorem".data, 0, 18), ("lemma".data, 32, 48), ("theorem".data, 60, 78)]

theorem claim_C2_witness :
    find_environments c2doc ENV_TYPES =
      c2spec.map (fun x =>
        (x.1, pyStrip (slice c2doc (x.2.1 + (openPat x.1).length) x.2.2), x.2.1)) :=
  claim_C2.2 c2doc ENV_TYPES c2spec (by decide) (by decide) (by decide)
    (by decide) (by decide) (by decide)

/-!
### Claim C1: same-type nesting

Helper lemmas about slices, trimming and the per-type loop on a document
holding one nested pair of same-type environments.
-/

/-- A sub-slice is an infix of the enclosing slice. -/
theorem slice_infix_slice (doc : Str) {a b c d : Nat} (hac : a ≤ c) (hdb : d ≤ b) :
    slice doc c d <:+: slice doc a b := by
  have heq : slice doc c d = ((slice doc a b).drop (c - a)).take (d - c) := by
    unfold slice
    rw [List.drop_take, List.drop_drop]
    rw [Nat.add_sub_cancel' hac]
    rw [List.take_take]
    congr 1
    omega
  rw [heq]
  exact ((List.take_prefix _ _).isInfix).trans ((List.drop_suffix _ _).isInfix)

/-- Splitting a slice at an interior point. -/
theorem slice_split (doc : Str) {a b c : Nat} (hab : a ≤ b) (hbc : b ≤ c) :
    slice doc a c = slice doc a b ++ slice doc b c := by
  unfold slice
  have hc : c - a = (b - a) + (c - b) := by omega
  rw [hc, List.take_add, List.drop_drop]
  congr 3
  omega

/-- The slice covering a marker occurrence is the marker itself. -/
theorem slice_of_matchesAt {doc pat : Str} {j : Nat}
    (h : matchesAt doc pat j = true) : slice doc j (j + pat.length) = pat := by
  unfold matchesAt at h
  rw [List.isPrefixOf_iff_prefix] at h
  obtain ⟨u, hu⟩ := h
  unfold slice
  rw [← hu]  -- doc.drop j = pat ++ u
  rw [Nat.add_sub_cancel_left]
  exact List.take_left pat u

/-- An infix whose first character is not dropped survives `dropWhile`. -/
theorem infix_dropWhile {p : Char → Bool} {t s : Str} (hinf : t <:+: s)
    (hhead : ∃ c t1, t = c :: t1 ∧ p c = false) : t <:+: s.dropWhile p := by
  obtain ⟨u, v, huv⟩ := hinf
  obtain ⟨c, t1, rfl, hc⟩ := hhead
  subst huv
  rw [List.append_assoc, List.dropWhile_append]
  by_cases hu : (u.dropWhile p).isEmpty
  · rw [if_pos hu]
    rw [List.cons_append, List.dropWhile_cons, hc]
    simp only [Bool.false_eq_true, if_false]
    exact ⟨[], v, by simp⟩
  · rw [if_neg hu]
    exact ⟨u.dropWhile p, v, by simp⟩

/-- An infix with non-whitespace first and last characters survives
Python's `strip()`. -/
theorem infix_pyStrip {t s : Str} (hinf : t <:+: s)
    (hhead : ∃ c t1, t = c :: t1 ∧ isWS c = false)
    (hlast : ∃ d t2, t = t2 ++ [d] ∧ isWS d = false) : t <:+: pyStrip s := by
  unfold pyStrip
  have h1 : t <:+: s.dropWhile isWS := infix_dropWhile hinf hhead
  have h2 : t.reverse <:+: (s.dropWhile isWS).reverse := List.reverse_infix.mpr h1
  have h3 : t.reverse <:+: ((s.dropWhile isWS).reverse.dropWhile isWS) := by
    apply infix_dropWhile h2
    obtain ⟨d, t2, hd, hwd⟩ := hlast
    exact ⟨d, t2.reverse, by rw [hd]; simp, hwd⟩
  have h4 : t.reverse <:+:
      (((s.dropWhile isWS).reverse.dropWhile isWS).reverse).reverse := by
    rw [List.reverse_reverse]
    exact h3
  exact List.reverse_infix.mp h4

/-- A type with no open-marker occurrence yields no blocks. -/
theorem envLoop_nil {doc e : Str} (h : occList doc (openPat e) = []) :
    envLoop doc e = [] := by
  unfold envLoop envLoopGo
  have hf : findFrom doc (openPat e) 0 = none := by
    rw [findFrom_eq_head_occFrom, occFrom_zero, h]
    rfl
  rw [hf]

/-- Flattening a map in which every key except one yields `[]`. -/
theorem flatten_single {α κ : Type} [DecidableEq κ] (f : κ → List α) :
    ∀ (l : List κ) (T : κ), l.Nodup → T ∈ l → (∀ e ∈ l, e ≠ T → f e = []) →
      (l.map f).flatten = f T := by
  intro l
  induction l with
  | nil => intro T _ hT _; exact absurd hT (List.not_mem_nil T)
  | cons e rest ih =>
    intro T hnd hT hz
    rw [List.nodup_cons] at hnd
    simp only [List.map_cons, List.flatten_cons]
    rcases List.mem_cons.mp hT with rfl | hTr
    · have hrest : (rest.map f).flatten = [] := by
        rw [List.flatten_eq_nil_iff]
        intro x hx
        rw [List.mem_map] at hx
        obtain ⟨e', he', rfl⟩ := hx
        exact hz e' (List.mem_cons_of_mem _ he') (fun hc => hnd.1 (hc ▸ he'))
      rw [hrest, List.append_nil]
    · have he : f e = [] := by
        apply hz e (List.mem_cons_self _ _)
        intro hc
        exact hnd.1 (hc ▸ hTr)
      rw [he, List.nil_append]
      exact ih T hnd.2 hTr (fun e' he' hne => hz e' (List.mem_cons_of_mem _ he') hne)

/-- Block top-levelness at an offset: as many open markers as close
markers occur strictly before it (nesting depth zero). -/
def topLevelAt (doc env : Str) (p : Nat) : Bool :=
  ((occList doc (openPat env)).filter (fun j => decide (j < p))).length ==
  ((occList doc (closePat env)).filter (fun j => decide (j < p))).length

/-- Claim C1: on a document whose type-`T` markers form one properly
closed pair nested inside another properly closed pair (occurrence lists
`[p0, p1]` and `[q1, q2]` in nesting order), the extractor emits the
outer block (whose body spans from after the outer open marker to the
outer close marker, hence contains the inner pair) and the inner block;
exactly one returned `T` block is top-level, and that block's body
contains the complete inner open/close pair as literal text. -/
theorem claim_C1 (doc T : Str) (p0 p1 q1 q2 : Nat)
    (hT : T ∈ ENV_TYPES)
    (hop : occList doc (openPat T) = [p0, p1])
    (hcl : occList doc (closePat T) = [q1, q2])
    (h1 : p0 + (openPat T).length ≤ p1)
    (h2 : p1 + (openPat T).length ≤ q1)
    (h3 : q1 + (closePat T).length ≤ q2)
    (hother : ∀ e ∈ ENV_TYPES, e ≠ T → occList doc (openPat e) = []) :
    find_environments doc ENV_TYPES =
      [(T, pyStrip (slice doc (p0 + (openPat T).length) q2), p0),
       (T, pyStrip (slice doc (p1 + (openPat T).length) q1), p1)] ∧
    (find_environments doc ENV_TYPES).filter
        (fun r => r.1 == T && topLevelAt doc T r.2.2) =
      [(T, pyStrip (slice doc (p0 + (openPat T).length) q2), p0)] ∧
    slice doc p1 (q1 + (closePat T).length) <:+:
      pyStrip (slice doc (p0 + (openPat T).length) q2) := by
  have hOL : (openPat T).length = T.length + 8 := openPat_length T
  have hCL : (closePat T).length = T.length + 6 := closePat_length T
  set OL := (openPat T).length with hOLdef
  set CL := (closePat T).length with hCLdef
  set cs0 := p0 + OL with hcs0
  set cs1 := p1 + OL with hcs1
  set sp2 := q1 + CL with hsp2
  -- basic membership facts
  have hp1mem : p1 ∈ occList doc (openPat T) := by rw [hop]; simp
  have hq1mem : q1 ∈ occList doc (closePat T) := by rw [hcl]; simp
  have hq2mem : q2 ∈ occList doc (closePat T) := by rw [hcl]; simp
  have hq2len : q2 + CL ≤ doc.length := by
    obtain ⟨hle, hm⟩ := mem_occList.mp hq2mem
    rcases matchesAt_le_length hm with h | h
    · exact h
    · exact absurd h (closePat_ne_nil T)
  -- occurrence lists seen from the successive scan positions
  have hoA : occFrom doc (openPat T) cs0 = [p1] := by
    have d1 : decide (cs0 ≤ p0) = false := by simp; omega
    have d2 : decide (cs0 ≤ p1) = true := by simp; omega
    simp only [occFrom, hop, List.filter_cons, List.filter_nil, d1, d2]
    rfl
  have hcA : occFrom doc (closePat T) cs0 = [q1, q2] := by
    have d1 : decide (cs0 ≤ q1) = true := by simp; omega
    have d2 : decide (cs0 ≤ q2) = true := by simp; omega
    simp only [occFrom, hcl, List.filter_cons, List.filter_nil, d1, d2]
    rfl
  have hoB : occFrom doc (openPat T) cs1 = [] := by
    have d1 : decide (cs1 ≤ p0) = false := by simp; omega
    have d2 : decide (cs1 ≤ p1) = false := by simp; omega
    simp only [occFrom, hop, List.filter_cons, List.filter_nil, d1, d2]
    rfl
  have hcB : occFrom doc (closePat T) cs1 = [q1, q2] := by
    have d1 : decide (cs1 ≤ q1) = true := by simp; omega
    have d2 : decide (cs1 ≤ q2) = true := by simp; omega
    simp only [occFrom, hcl, List.filter_cons, List.filter_nil, d1, d2]
    rfl
  have hoC : occFrom doc (openPat T) sp2 = [] := by
    have d1 : decide (sp2 ≤ p0) = false := by simp; omega
    have d2 : decide (sp2 ≤ p1) = false := by simp; omega
    simp only [occFrom, hop, List.filter_cons, List.filter_nil, d1, d2]
    rfl
  have hcC : occFrom doc (closePat T) sp2 = [q2] := by
    have d1 : decide (sp2 ≤ q1) = false := by simp; omega
    have d2 : decide (sp2 ≤ q2) = true := by simp; omega
    simp only [occFrom, hcl, List.filter_cons, List.filter_nil, d1, d2]
    rfl
  have ho0 : occFrom doc (openPat T) 0 = [p0, p1] := by
    rw [occFrom_zero]; exact hop
  -- the corresponding findFrom results
  have hf0 : findFrom doc (openPat T) 0 = some p0 := findFrom_of_occFrom ho0
  have hfoA : findFrom doc (openPat T) cs0 = some p1 := findFrom_of_occFrom hoA
  have hfcA : findFrom doc (closePat T) cs0 = some q1 := findFrom_of_occFrom hcA
  have hfoB : findFrom doc (openPat T) cs1 = none := findFrom_of_occFrom hoB
  have hfcB : findFrom doc (closePat T) cs1 = some q1 := findFrom_of_occFrom hcB
  have hfoC : findFrom doc (openPat T) sp2 = none := findFrom_of_occFrom hoC
  have hfcC : findFrom doc (closePat T) sp2 = some q2 := findFrom_of_occFrom hcC
  -- the outer block's nesting scan: open at p1, close at q1, close at q2
  have hscan0 : scanEnd doc (openPat T) (closePat T) cs0 = some q2 := by
    unfold scanEnd scanEndGo
    rw [hfcA, hfoA]
    simp only
    rw [if_pos (show p1 < q1 by omega)]
    rw [scanEndGo_congr doc (openPat T) (closePat T) (openPat_ne_nil T)
      (closePat_ne_nil T) doc.length (doc.length + 1) 2 (p1 + OL)
      (by omega) (by omega)]
    rw [← hcs1]
    unfold scanEndGo
    rw [hfcB, hfoB]
    simp only
    rw [if_neg (show ¬ (2 = 1) by omega)]
    rw [scanEndGo_congr doc (openPat T) (closePat T) (openPat_ne_nil T)
      (closePat_ne_nil T) doc.length (doc.length + 1) (2 - 1) (q1 + CL)
      (by omega) (by omega)]
    rw [← hsp2]
    unfold scanEndGo
    rw [hfcC, hfoC]
    simp
  -- the inner block's nesting scan: no further opens, close at q1
  have hscan1 : scanEnd doc (openPat T) (closePat T) cs1 = some q1 := by
    unfold scanEnd scanEndGo
    rw [hfcB, hfoB]
    simp
  -- the per-type loop on T returns the outer and the inner block
  have henv : envLoop doc T =
      [(T, pyStrip (slice doc cs0 q2), p0), (T, pyStrip (slice doc cs1 q1), p1)] := by
    unfold envLoop envLoopGo
    rw [hf0]
    simp only
    rw [← hcs0, hscan0]
    rw [envLoopGo_congr doc T doc.length (doc.length + 1) cs0 (by omega) (by omega)]
    unfold envLoopGo
    rw [hfoA]
    simp only
    rw [← hcs1, hscan1]
    rw [envLoopGo_congr doc T doc.length (doc.length + 1) cs1 (by omega) (by omega)]
    unfold envLoopGo
    rw [hfoB]
  -- every other type contributes nothing
  have hflat : (ENV_TYPES.map (fun e => envLoop doc e)).flatten = envLoop doc T := by
    apply flatten_single (fun e => envLoop doc e) ENV_TYPES T (by decide) hT
    intro e he hne
    exact envLoop_nil (hother e he hne)
  -- the extractor's full output
  have hmain : find_environments doc ENV_TYPES =
      [(T, pyStrip (slice doc cs0 q2), p0), (T, pyStrip (slice doc cs1 q1), p1)] := by
    unfold find_environments
    rw [hflat, henv]
    apply insertionSort_eq_of_strict (List.Perm.refl _)
    rw [List.pairwise_cons]
    constructor
    · intro b hb
      rcases List.mem_cons.mp hb with rfl | hb
      · simp only
        omega
      · exact absurd hb (List.not_mem_nil b)
    · simp
  refine ⟨hmain, ?_, ?_⟩
  · -- exactly one top-level block
    rw [hmain]
    have htop0 : topLevelAt doc T p0 = true := by
      unfold topLevelAt
      rw [hop, hcl]
      have d1 : decide (p0 < p0) = false := by simp
      have d2 : decide (p1 < p0) = false := by simp; omega
      have d3 : decide (q1 < p0) = false := by simp; omega
      have d4 : decide (q2 < p0) = false := by simp; omega
      simp only [List.filter_cons, List.filter_nil, d1, d2, d3, d4]
      rfl
    have htop1 : topLevelAt doc T p1 = false := by
      unfold topLevelAt
      rw [hop, hcl]
      have d1 : decide (p0 < p1) = true := by simp; omega
      have d2 : decide (p1 < p1) = false := by simp
      have d3 : decide (q1 < p1) = false := by simp; omega
      have d4 : decide (q2 < p1) = false := by simp; omega
      simp only [List.filter_cons, List.filter_nil, d1, d2, d3, d4]
      rfl
    rw [List.filter_cons, List.filter_cons, List.filter_nil]
    simp only [htop0, htop1]
    simp
  · -- the inner complete pair is literal text inside the outer body
    have hinfix : slice doc p1 (q1 + CL) <:+: slice doc cs0 q2 :=
      slice_infix_slice doc (show cs0 ≤ p1 by omega) (show q1 + CL ≤ q2 by omega)
    apply infix_pyStrip hinfix
    · -- first character is the backslash of the inner open marker
      have hm : matchesAt doc (openPat T) p1 = true := (mem_occList.mp hp1mem).2
      unfold matchesAt at hm
      rw [List.isPrefixOf_iff_prefix] at hm
      obtain ⟨u, hu⟩ := hm
      have hopen : openPat T = '\\' :: ("begin\x7b".data ++ T ++ ['}']) := rfl
      obtain ⟨k, hk⟩ : ∃ k, q1 + CL - p1 = k + 1 := ⟨q1 + CL - p1 - 1, by omega⟩
      refine ⟨'\\', (("begin\x7b".data ++ T ++ ['}']) ++ u).take k, ?_, by decide⟩
      unfold slice
      rw [← hu, hopen, hk]
      rw [List.cons_append, List.take_succ_cons]
    · -- last character is the brace closing the inner close marker
      have hm : matchesAt doc (closePat T) q1 = true := (mem_occList.mp hq1mem).2
      have hsplit : slice doc p1 (q1 + CL) = slice doc p1 q1 ++ slice doc q1 (q1 + CL) :=
        slice_split doc (by omega) (by omega)
      have hclose : slice doc q1 (q1 + CL) = closePat T := slice_of_matchesAt hm
      refine ⟨'}', slice doc p1 q1 ++ ("\\end\x7b".data ++ T), ?_, by decide⟩
      rw [hsplit, hclose]
      unfold closePat
      simp [List.append_assoc]

def c1doc : Str :=
  "\\begin\x7btheorem\x7d A \\begin\x7btheorem\x7d B \\end\x7btheorem\x7d C \\end\x7btheorem\x7d".data

theorem claim_C1_witness :
    find_environments c1doc ENV_TYPES =
      [("theorem".data,
        pyStrip (slice c1doc (0 + (openPat "theorem".data).length) 52), 0),
       ("theorem".data,
        pyStrip (slice c1doc (18 + (openPat "theorem".data).length) 36), 18)] ∧
    (find_environments c1doc ENV_TYPES).filter
        (fun r => r.1 == "theorem".data && topLevelAt c1doc "theorem".data r.2.2) =
      [("theorem".data,
        pyStrip (slice c1doc (0 + (openPat "theorem".data).length) 52), 0)] ∧
    slice c1doc 18 (36 + (closePat "theorem".data).length) <:+:
      pyStrip (slice c1doc (0 + (openPat "theorem".data).length) 52) :=
  claim_C1 c1doc "theorem".data 0 18 36 52 (by decide) (by decide) (by decide)
    (by decide) (by decide) (by decide) (by decide)

end ExtractAnki
